import Mathlib

/-!
Verification of `src/sage/combinat/crystals/affinization.py`
(the affinization of a finite affine-type crystal).

The base crystal `B` is an external collaborator of the module: the code
only uses its partial operators `e`, `f`, the statistics `epsilon`, `phi`,
the coefficient decomposition of `weight`, its ordering, equality, module
generators, Cartan-type affineness and cardinality.  We therefore embed it
as an abstract interface `BaseCrystal` and translate the affinization code
over it.  Machine integers do not occur: Sage's grades are arbitrary
Python integers, embedded as `Int`.
-/

/-- The interface of the base crystal `B` consumed by
`AffinizationOfCrystal`.  `e i b` and `f i b` are the partial raising and
lowering operators (`None` in Python becomes `Option.none`); `weight b`
is the coefficient decomposition `wt(b) = Σ c_i Λ_i` as the list of pairs
`(i, c_i)` that Python iteration over `b.weight()` yields; `lt` and `beq`
are the base crystal's own `<` and `==`; `is_affine` is
`B.cartan_type().is_affine()` and `cardinality_is_infinite` is the test
`B.cardinality() == Infinity`. -/
structure BaseCrystal (B : Type) where
  e : Int → B → Option B
  f : Int → B → Option B
  epsilon : Int → B → Int
  phi : Int → B → Int
  weight : B → List (Int × Int)
  lt : B → B → Bool
  beq : B → B → Bool
  module_generators : List B
  is_affine : Bool
  cardinality_is_infinite : Bool

namespace AffinizationOfCrystal

/-- An element of the affinization crystal: the pair of a base element
`b` and an integer grade `m`, exactly the state `(self._b, self._m)` of
`AffinizationOfCrystal.Element`. -/
structure Element (B : Type) where
  b : B
  m : Int
deriving DecidableEq

/-- `Element.e` (affinization.py lines 247-270): compute `bp = b.e(i)`;
if it is `None` return `None`; otherwise return `(bp, m+1)` when `i == 0`
and `(bp, m)` otherwise. -/
def Element.e {B : Type} (C : BaseCrystal B) (x : Element B) (i : Int) :
    Option (Element B) :=
  match C.e i x.b with
  | none => none
  | some bp => if i = 0 then some ⟨bp, x.m + 1⟩ else some ⟨bp, x.m⟩

/-- `Element.f` (affinization.py lines 272-298): compute `bp = b.f(i)`;
if it is `None` return `None`; otherwise return `(bp, m-1)` when `i == 0`
and `(bp, m)` otherwise. -/
def Element.f {B : Type} (C : BaseCrystal B) (x : Element B) (i : Int) :
    Option (Element B) :=
  match C.f i x.b with
  | none => none
  | some bp => if i = 0 then some ⟨bp, x.m - 1⟩ else some ⟨bp, x.m⟩

/-- `Element.epsilon` (lines 300-317): pass through to `self._b.epsilon(i)`. -/
def Element.epsilon {B : Type} (C : BaseCrystal B) (x : Element B) (i : Int) :
    Int :=
  C.epsilon i x.b

/-- `Element.phi` (lines 319-336): pass through to `self._b.phi(i)`. -/
def Element.phi {B : Type} (C : BaseCrystal B) (x : Element B) (i : Int) :
    Int :=
  C.phi i x.b

/-- `Element.__lt__` (lines 227-245):
`self._m < other._m or (self._m == other._m and self._b < other._b)`. -/
def Element.lt {B : Type} (C : BaseCrystal B) (x y : Element B) : Bool :=
  decide (x.m < y.m) || (x.m == y.m && C.lt x.b y.b)

/-- A Python value an affinized element may be compared with: either an
affinized-crystal element (with the identity of its parent, since Sage
parents are compared as unique objects) or any other value. -/
inductive PyValue (B : Type) where
  | element : Nat → Element B → PyValue B
  | other : Nat → PyValue B

/-- `Element.__eq__` (lines 190-210): if `other` is not an
`AffinizationOfCrystal.Element`, return `False`; otherwise compare the
parents, the base elements (with the base crystal's own equality) and the
grades.  `p` is the identity of the parent of `self`. -/
def Element.eqPy {B : Type} (C : BaseCrystal B) (p : Nat) (x : Element B)
    (v : PyValue B) : Bool :=
  match v with
  | .element p2 y => p == p2 && C.beq x.b y.b && x.m == y.m
  | .other _ => false

/-- `Element.__ne__` (lines 212-225): `not self.__eq__(other)`. -/
def Element.nePy {B : Type} (C : BaseCrystal B) (p : Nat) (x : Element B)
    (v : PyValue B) : Bool :=
  ! Element.eqPy C p x v

/-- The construction errors of `AffinizationOfCrystal.__init__`
(lines 86-89): `ValueError("must be an affine crystal")` and
`ValueError("must be finite crystal")`. -/
inductive ConstructionError where
  | notAffine
  | notFinite
deriving DecidableEq

/-- The affinization crystal: holds the base crystal and the module
generators, the state built by `__init__` (lines 90-94). -/
structure Crystal (B : Type) where
  base : BaseCrystal B
  module_generators : List (Element B)

/-- `AffinizationOfCrystal.__init__` (lines 75-94): raise unless the
Cartan type is affine, then raise unless the cardinality is finite, then
store `B` and build the module generators `(g, 0)` from the module
generators of `B`, in order. -/
def affinizationOf {B : Type} (C : BaseCrystal B) :
    Except ConstructionError (Crystal B) :=
  if C.is_affine = false then .error ConstructionError.notAffine
  else if C.cardinality_is_infinite = true then .error ConstructionError.notFinite
  else .ok ⟨C, C.module_generators.map (fun g => ⟨g, 0⟩)⟩

/-- The interface of the extended weight lattice used by
`Element.weight`: an additive group with the fundamental weights
`Λ_i` and the null root `δ`
(`weight_lattice_realization`, lines 107-117, delegates to the host
root-system framework, which is outside this module). -/
structure WeightLatticeRealization (W : Type) [AddCommGroup W] where
  fundamental_weights : Int → W
  null_root : W

/-- `Element.weight` (lines 338-363):
`WLR.sum(c*La[i] for i,c in self._b.weight()) + self._m * WLR.null_root()`. -/
def Element.weight {B W : Type} [AddCommGroup W] (C : BaseCrystal B)
    (WLR : WeightLatticeRealization W) (x : Element B) : W :=
  ((C.weight x.b).map (fun ic => ic.2 • WLR.fundamental_weights ic.1)).sum
    + x.m • WLR.null_root

/-- The weight formula as the specification words it: if
`wt(b) = Σ c_i Λ_i` then the result is `Σ c_i Λ_i + m·δ`, the sum taken
term by term over the coefficient decomposition. -/
def Element.weight_specified {B W : Type} [AddCommGroup W] (C : BaseCrystal B)
    (WLR : WeightLatticeRealization W) (x : Element B) : W :=
  List.foldr (fun ic acc => ic.2 • WLR.fundamental_weights ic.1 + acc)
    (x.m • WLR.null_root) (C.weight x.b)

end AffinizationOfCrystal

namespace AffinizationOfCrystal

/-- Raising operators of a concrete finite base crystal on four elements,
shaped like the fragment of the Kirillov-Reshetikhin doctest examples:
`e 0` sends element 0 to 1 and 2 to 3, `e 2` sends 2 to 0, everything
else is undefined. -/
def exE (i : Int) (b : Fin 4) : Option (Fin 4) :=
  if i = 0 then
    match b with
    | 0 => some 1
    | 2 => some 3
    | _ => none
  else if i = 2 then
    match b with
    | 2 => some 0
    | _ => none
  else none

/-- Lowering operators of the concrete base crystal, inverse to `exE`. -/
def exF (i : Int) (b : Fin 4) : Option (Fin 4) :=
  if i = 0 then
    match b with
    | 1 => some 0
    | 3 => some 2
    | _ => none
  else if i = 2 then
    match b with
    | 0 => some 2
    | _ => none
  else none

/-- Weight decompositions of the concrete base crystal; elements 0 and 1
carry the coefficients of the doctest generator and of its image under
`e_0`, elements 2 and 3 share one weight. -/
def exWt (b : Fin 4) : List (Int × Int) :=
  match b with
  | 0 => [(0, -2), (2, 2)]
  | 1 => [(1, -1), (2, 1)]
  | 2 => [(1, 1)]
  | 3 => [(1, 1)]

/-- The concrete base crystal used to instantiate the theorems. -/
def Cex : BaseCrystal (Fin 4) where
  e := exE
  f := exF
  epsilon := fun i b => if i == 0 && b == 0 then 2 else 0
  phi := fun i b => if i == 2 && b == 0 then 2 else 0
  weight := exWt
  lt := fun a b => decide (a < b)
  beq := fun a b => a == b
  module_generators := [0]
  is_affine := true
  cardinality_is_infinite := false

/-- A concrete extended weight lattice: coefficient vectors on
`(Λ_0, Λ_1, Λ_2, δ)`. -/
def WLRex : WeightLatticeRealization (ℤ × ℤ × ℤ × ℤ) where
  fundamental_weights := fun i =>
    if i = 0 then (1, 0, 0, 0)
    else if i = 1 then (0, 1, 0, 0)
    else if i = 2 then (0, 0, 1, 0)
    else 0
  null_root := (0, 0, 0, 1)


end AffinizationOfCrystal

namespace AffinizationOfCrystal

/-- C1: for every affinized element `x = (b, m)` and every index `i`,
`x.e(i)` is defined iff `e_i` is defined on the base element `b`
(undefinedness is the explicit `none`, never an error), and when
`e_i(b) = bp` is defined the result is `(bp, m+1)` for `i = 0` and
`(bp, m)` otherwise. -/
theorem e_defined_iff_and_value {B : Type} (C : BaseCrystal B)
    (x : Element B) (i : Int) :
    (Element.e C x i = none ↔ C.e i x.b = none) ∧
    ∀ bp, C.e i x.b = some bp →
      Element.e C x i = some ⟨bp, if i = 0 then x.m + 1 else x.m⟩ := by
  unfold Element.e
  constructor
  · cases h : C.e i x.b with
    | none => simp
    | some bp => by_cases hi : i = 0 <;> simp [hi]
  · intro bp h
    rw [h]
    by_cases hi : i = 0 <;> simp [hi]

theorem e_defined_iff_and_value_witness :
    Element.e Cex (⟨0, 0⟩ : Element (Fin 4)) 0
      = some ⟨1, if (0 : Int) = 0 then (0 : Int) + 1 else 0⟩ :=
  (e_defined_iff_and_value Cex ⟨0, 0⟩ 0).2 1 (by decide)

/-- C2: for every affinized element `x = (b, m)` and every index `i`,
`x.f(i)` is defined iff `f_i` is defined on the base element `b`, and
when `f_i(b) = bp` is defined the result is `(bp, m-1)` for `i = 0` and
`(bp, m)` otherwise; undefinedness propagates as the explicit `none`. -/
theorem f_defined_iff_and_value {B : Type} (C : BaseCrystal B)
    (x : Element B) (i : Int) :
    (Element.f C x i = none ↔ C.f i x.b = none) ∧
    ∀ bp, C.f i x.b = some bp →
      Element.f C x i = some ⟨bp, if i = 0 then x.m - 1 else x.m⟩ := by
  unfold Element.f
  constructor
  · cases h : C.f i x.b with
    | none => simp
    | some bp => by_cases hi : i = 0 <;> simp [hi]
  · intro bp h
    rw [h]
    by_cases hi : i = 0 <;> simp [hi]

theorem f_defined_iff_and_value_witness :
    Element.f Cex (⟨1, 1⟩ : Element (Fin 4)) 0
      = some ⟨0, if (0 : Int) = 0 then (1 : Int) - 1 else 1⟩ :=
  (f_defined_iff_and_value Cex ⟨1, 1⟩ 0).2 0 (by decide)

/-- C3: the weight of `x = (b, m)` is exactly the specification's
formula: with `wt(b) = Σ c_i Λ_i` the result is `Σ c_i Λ_i + m·δ` in the
weight lattice realization. -/
theorem weight_matches_specified {B W : Type} [AddCommGroup W]
    (C : BaseCrystal B) (WLR : WeightLatticeRealization W) (x : Element B) :
    Element.weight C WLR x = Element.weight_specified C WLR x := by
  unfold Element.weight Element.weight_specified
  generalize C.weight x.b = l
  induction l with
  | nil => simp
  | cons hd tl ih =>
      simp only [List.map_cons, List.sum_cons, List.foldr_cons, ih, add_assoc]

/-- C4: `x < y` holds iff `m1 < m2`, or `m1 = m2` and `b1 < b2` in the
base crystal's own ordering. -/
theorem lt_iff {B : Type} (C : BaseCrystal B) (x y : Element B) :
    Element.lt C x y = true ↔
      x.m < y.m ∨ (x.m = y.m ∧ C.lt x.b y.b = true) := by
  simp [Element.lt]

/-- C5: construction succeeds iff the base crystal's Cartan type is
affine and its cardinality is finite; otherwise it returns a
construction error and builds nothing (the `Except.error` result carries
no partially built crystal). -/
theorem init_ok_iff {B : Type} (C : BaseCrystal B) :
    (∃ A, affinizationOf C = Except.ok A) ↔
      (C.is_affine = true ∧ C.cardinality_is_infinite = false) := by
  unfold affinizationOf
  cases h1 : C.is_affine <;> cases h2 : C.cardinality_is_infinite <;> simp

/-- C8: the module generators of the affinized crystal are exactly the
pairs `(g, 0)` over the module generators of the base crystal, in the
same order. -/
theorem module_generators_spec {B : Type} (C : BaseCrystal B) (A : Crystal B)
    (h : affinizationOf C = Except.ok A) :
    A.module_generators = C.module_generators.map (fun g => ⟨g, 0⟩) := by
  unfold affinizationOf at h
  split at h
  · exact absurd h (by simp)
  · split at h
    · exact absurd h (by simp)
    · cases h
      rfl

theorem module_generators_spec_witness :
    (Crystal.mk Cex [⟨0, 0⟩]).module_generators
      = Cex.module_generators.map (fun g => (⟨g, 0⟩ : Element (Fin 4))) :=
  module_generators_spec Cex ⟨Cex, [⟨0, 0⟩]⟩ rfl

/-- C9: `epsilon(i)` and `phi(i)` of `x = (b, m)` are exactly the base
element's `epsilon_i` and `phi_i`; the grade `m` has no effect. -/
theorem epsilon_phi_passthrough {B : Type} (C : BaseCrystal B)
    (x : Element B) (i : Int) :
    Element.epsilon C x i = C.epsilon i x.b ∧
    Element.phi C x i = C.phi i x.b ∧
    ∀ mm : Int, Element.epsilon C ⟨x.b, mm⟩ i = Element.epsilon C x i ∧
      Element.phi C ⟨x.b, mm⟩ i = Element.phi C x i :=
  ⟨rfl, rfl, fun _ => ⟨rfl, rfl⟩⟩

/-- C10: equality on affinized elements is a total Boolean function
(never an error): against a value that is not an affinized-crystal
element it returns `false`; against an element it is true iff the
parents, the base elements (per the base crystal's equality) and the
grades agree; and `!=` is in every case the negation of `==`. -/
theorem eq_ne_total {B : Type} (C : BaseCrystal B) (p : Nat)
    (x : Element B) (v : PyValue B) :
    (∀ t, Element.eqPy C p x (PyValue.other t) = false) ∧
    (Element.eqPy C p x v = true ↔
      ∃ p2 y, v = PyValue.element p2 y ∧ p = p2 ∧ C.beq x.b y.b = true
        ∧ x.m = y.m) ∧
    Element.nePy C p x v = ! Element.eqPy C p x v := by
  refine ⟨fun _ => rfl, ?_, rfl⟩
  cases v with
  | element p2 y =>
      simp only [Element.eqPy, Bool.and_eq_true, beq_iff_eq]
      constructor
      · rintro ⟨⟨hp, hb⟩, hm⟩
        exact ⟨p2, y, rfl, hp, hb, hm⟩
      · rintro ⟨p3, y3, hv, hp, hb, hm⟩
        cases hv
        exact ⟨⟨hp, hb⟩, hm⟩
  | other t =>
      simp [Element.eqPy]

end AffinizationOfCrystal

namespace AffinizationOfCrystal

/-- The concrete base crystal's lowering operators invert its raising
operators wherever the latter are defined. -/
theorem Cex_ef_inverse : ∀ i b bp, Cex.e i b = some bp → Cex.f i bp = some b := by
  intro i
  by_cases h0 : i = 0
  · subst h0; decide
  · by_cases h2 : i = 2
    · subst h2; decide
    · intro b bp h
      have h3 : exE i b = some bp := h
      unfold exE at h3
      rw [if_neg h0, if_neg h2] at h3
      exact absurd h3 (by simp)

/-- The concrete base crystal's raising operators invert its lowering
operators wherever the latter are defined. -/
theorem Cex_fe_inverse : ∀ i b bp, Cex.f i b = some bp → Cex.e i bp = some b := by
  intro i
  by_cases h0 : i = 0
  · subst h0; decide
  · by_cases h2 : i = 2
    · subst h2; decide
    · intro b bp h
      have h3 : exF i b = some bp := h
      unfold exF at h3
      rw [if_neg h0, if_neg h2] at h3
      exact absurd h3 (by simp)

/-- Helper: the value of `Element.e` when the base operator is defined. -/
theorem e_some {B : Type} (C : BaseCrystal B) (x : Element B) (i : Int)
    (bp : B) (h : C.e i x.b = some bp) :
    Element.e C x i = some ⟨bp, if i = 0 then x.m + 1 else x.m⟩ := by
  unfold Element.e
  rw [h]
  by_cases hi : i = 0 <;> simp [hi]

/-- Helper: `Element.e` is undefined when the base operator is. -/
theorem e_none {B : Type} (C : BaseCrystal B) (x : Element B) (i : Int)
    (h : C.e i x.b = none) : Element.e C x i = none := by
  unfold Element.e
  rw [h]

/-- Helper: the value of `Element.f` when the base operator is defined. -/
theorem f_some {B : Type} (C : BaseCrystal B) (x : Element B) (i : Int)
    (bp : B) (h : C.f i x.b = some bp) :
    Element.f C x i = some ⟨bp, if i = 0 then x.m - 1 else x.m⟩ := by
  unfold Element.f
  rw [h]
  by_cases hi : i = 0 <;> simp [hi]

/-- Helper: `Element.f` is undefined when the base operator is. -/
theorem f_none {B : Type} (C : BaseCrystal B) (x : Element B) (i : Int)
    (h : C.f i x.b = none) : Element.f C x i = none := by
  unfold Element.f
  rw [h]

/-- C6: if the base crystal's `e_i` and `f_i` are mutually inverse where
defined, then on every affinized element a defined raise followed by the
same-index lower gives back the element, and symmetrically. -/
theorem raise_lower_inverse {B : Type} (C : BaseCrystal B)
    (hef : ∀ i b bp, C.e i b = some bp → C.f i bp = some b)
    (hfe : ∀ i b bp, C.f i b = some bp → C.e i bp = some b)
    (x : Element B) (i : Int) :
    (∀ y, Element.e C x i = some y → Element.f C y i = some x) ∧
    (∀ y, Element.f C x i = some y → Element.e C y i = some x) := by
  constructor
  · intro y hy
    cases h : C.e i x.b with
    | none => rw [e_none C x i h] at hy; exact absurd hy (by simp)
    | some bp =>
        have hv : (⟨bp, if i = 0 then x.m + 1 else x.m⟩ : Element B) = y :=
          Option.some.inj ((e_some C x i bp h).symm.trans hy)
        subst hv
        have hf := hef i x.b bp h
        refine (f_some C _ i x.b hf).trans ?_
        by_cases hi : i = 0 <;> simp [hi, add_sub_cancel_right]
  · intro y hy
    cases h : C.f i x.b with
    | none => rw [f_none C x i h] at hy; exact absurd hy (by simp)
    | some bp =>
        have hv : (⟨bp, if i = 0 then x.m - 1 else x.m⟩ : Element B) = y :=
          Option.some.inj ((f_some C x i bp h).symm.trans hy)
        subst hv
        have he := hfe i x.b bp h
        refine (e_some C _ i x.b he).trans ?_
        by_cases hi : i = 0 <;> simp [hi, sub_add_cancel]

theorem raise_lower_inverse_witness :
    Element.f Cex (⟨1, 1⟩ : Element (Fin 4)) 0 = some ⟨0, 0⟩ :=
  (raise_lower_inverse Cex Cex_ef_inverse Cex_fe_inverse ⟨0, 0⟩ 0).1
    ⟨1, 1⟩ (by decide)

/-- C7 fails as the claim states it: on the concrete crystal (whose
weight coefficients at elements 0 and 1 are exactly those of the
module's own doctest, affinization.py lines 352-359), `e(0)` is defined
at the generator but changes the base element's weight decomposition, so
`weight(x.e(0)) - weight(x)` is `α_0`-shifted and not the null root. -/
theorem weight_delta_counterexample :
    Element.e Cex (⟨0, 0⟩ : Element (Fin 4)) 0 = some ⟨1, 1⟩ ∧
    ¬ (Element.weight Cex WLRex (⟨1, 1⟩ : Element (Fin 4))
        - Element.weight Cex WLRex ⟨0, 0⟩ = WLRex.null_root) := by
  decide

/-- C7 amended: whenever raising (or lowering) is defined and the base
element's weight decomposition is unchanged, the weight changes by the
null root `δ` for `i = 0` (by `-δ` for lowering) and by `0` for
`i ≠ 0`; in general the difference also contains the change of the base
weight. -/
theorem weight_delta_amended {B W : Type} [AddCommGroup W]
    (C : BaseCrystal B) (WLR : WeightLatticeRealization W)
    (x : Element B) (i : Int) :
    (∀ y, Element.e C x i = some y → C.weight y.b = C.weight x.b →
      Element.weight C WLR y - Element.weight C WLR x =
        if i = 0 then WLR.null_root else 0) ∧
    (∀ y, Element.f C x i = some y → C.weight y.b = C.weight x.b →
      Element.weight C WLR y - Element.weight C WLR x =
        if i = 0 then - WLR.null_root else 0) := by
  constructor
  · intro y hy hw
    cases h : C.e i x.b with
    | none => rw [e_none C x i h] at hy; exact absurd hy (by simp)
    | some bp =>
        have hv : (⟨bp, if i = 0 then x.m + 1 else x.m⟩ : Element B) = y :=
          Option.some.inj ((e_some C x i bp h).symm.trans hy)
        subst hv
        unfold Element.weight
        rw [hw]
        by_cases hi : i = 0
        · simp only [hi, eq_self_iff_true, if_true]
          rw [add_zsmul, one_zsmul]
          abel
        · simp only [if_neg hi]
          abel
  · intro y hy hw
    cases h : C.f i x.b with
    | none => rw [f_none C x i h] at hy; exact absurd hy (by simp)
    | some bp =>
        have hv : (⟨bp, if i = 0 then x.m - 1 else x.m⟩ : Element B) = y :=
          Option.some.inj ((f_some C x i bp h).symm.trans hy)
        subst hv
        unfold Element.weight
        rw [hw]
        by_cases hi : i = 0
        · simp only [hi, eq_self_iff_true, if_true]
          rw [sub_zsmul, one_zsmul]
          abel
        · simp only [if_neg hi]
          abel

theorem weight_delta_amended_witness :
    Element.weight Cex WLRex (⟨3, 1⟩ : Element (Fin 4))
      - Element.weight Cex WLRex ⟨2, 0⟩ =
      if (0 : Int) = 0 then WLRex.null_root else 0 :=
  (weight_delta_amended Cex WLRex ⟨2, 0⟩ 0).1 ⟨3, 1⟩ (by decide) (by decide)

end AffinizationOfCrystal
